import Mathlib

/-!
Shallow embedding of `lda2vec/corpus.py` (the `Corpus` class and the
module-level `fast_replace` function).

Modelling conventions:
* numpy integer arrays are `List Int`; all operations in the source act on
  flattened 1-D data, so shape is not modelled.
* Python `assert` failures, numpy `ValueError` (reduction over an empty
  array) and `IndexError` (fancy indexing out of bounds) are modelled as
  `Except.error` with a distinguishing message string.
* `np.unique` returns the sorted distinct values; `np.setdiff1d` on sorted
  unique inputs is a filter of the sorted unique list.
* `np.argsort` / Python `sorted` are modelled with `List.insertionSort`.
  The source's tie-break order (two chained sorts, one of them numpy
  quicksort) is implementation-defined; the model fixes one deterministic
  order consistent with "sorted by count descending".  No theorem below
  depends on the tie order.
* `np.allclose(keys.shape, values.shape)` is modelled as exact length
  equality (the float tolerance of `allclose` is not modelled).
* `np.digitize(data, bins, right=True)` with ascending `bins` returns, for
  each `x`, the number of bin edges strictly less than `x`.
-/

namespace Lda2vec

/-- `np.max` over a flattened integer array: `none` models the
`ValueError` numpy raises on an empty array. -/
def npMax : List Int → Option Int
  | [] => none
  | x :: xs =>
    match npMax xs with
    | none => some x
    | some m => some (max x m)

/-- Ascending order on `Int`, named so that `insertionSort` instances
resolve definitionally. -/
def intLe (a b : Int) : Prop := a ≤ b

instance : DecidableRel intLe := fun a b => Int.decLe a b

instance : IsTotal Int intLe := ⟨fun a b => Int.le_total a b⟩

instance : IsTrans Int intLe := ⟨fun _ _ _ h1 h2 => le_trans h1 h2⟩

/-- `np.unique` on a flattened array: sorted distinct values. -/
def npUnique (l : List Int) : List Int :=
  (List.insertionSort intLe l).dedup

/-- `np.argmax` on a boolean array: index of the first `True`, and `0`
when every entry is `False`. -/
def npArgmaxFirstTrue (l : List Bool) : Nat :=
  match l.findIdx? (fun b => b) with
  | some i => i
  | none => 0

/-- `np.digitize(x, bins, right=True)` for ascending `bins`: the number
of bin edges strictly below `x`. -/
def digitizeRight (bins : List Int) (x : Int) : Nat :=
  bins.countP (fun b => decide (b < x))

/-- Order on key/value pairs by key, used to model `np.argsort(keys)`
followed by indexing both `keys` and `values` with the result. -/
def keyLe (a b : Int × Int) : Prop := a.1 ≤ b.1

instance : DecidableRel keyLe := fun a b => Int.decLe a.1 b.1

instance : IsTotal (Int × Int) keyLe := ⟨fun a b => Int.le_total a.1 b.1⟩

instance : IsTrans (Int × Int) keyLe := ⟨fun _ _ _ h1 h2 => le_trans h1 h2⟩

/-- `keys, values = keys[sdx], values[sdx]` with `sdx = np.argsort(keys)`:
the key/value pairs sorted by key. -/
def sortPairs (ps : List (Int × Int)) : List (Int × Int) :=
  List.insertionSort keyLe ps

/-- One element of `values[np.digitize(data, keys, right=True)]`:
`none` from the lookup models numpy's `IndexError` on a fancy index
that is out of bounds. -/
def replaceElem (s : List (Int × Int)) (x : Int) : Except String Int :=
  match (s.map Prod.snd)[digitizeRight (s.map Prod.fst) x]? with
  | some v => .ok v
  | none => .error "IndexError: index out of bounds"

/-- Elementwise evaluation of the vectorized `values[idx]` gather. -/
def mapExcept (f : Int → Except String Int) : List Int → Except String (List Int)
  | [] => .ok []
  | x :: xs =>
    match f x with
    | .error e => .error e
    | .ok v =>
      match mapExcept f xs with
      | .error e => .error e
      | .ok vs => .ok (v :: vs)

/-- `fast_replace(data, keys, values, skip_checks)` from `corpus.py`:
shape assertion, optional coarse max-bound check, argsort of the keys,
right-biased digitize, gather. -/
def fast_replace (data keys values : List Int) (skip_checks : Bool) :
    Except String (List Int) :=
  if keys.length ≠ values.length then
    .error "AssertionError: keys and values shapes differ"
  else
    match skip_checks, npMax data, npMax keys with
    | false, none, _ =>
        .error "ValueError: zero-size array to reduction operation maximum"
    | false, some _, none =>
        .error "ValueError: zero-size array to reduction operation maximum"
    | false, some dm, some km =>
        if dm ≤ km then
          mapExcept (replaceElem (sortPairs (keys.zip values))) data
        else
          .error "AssertionError: data.max() exceeds keys.max()"
    | true, _, _ =>
        mapExcept (replaceElem (sortPairs (keys.zip values))) data

/-- The state of a `Corpus` instance.  `keys_loose` and `keys_counts`
are the attributes set by `finalize` (empty before it runs). -/
structure Corpus where
  counts_loose : List (Int × Nat)
  out_of_vocabulary : Int
  finalized : Bool
  keys_loose : List Int
  keys_counts : List Nat
deriving DecidableEq, Repr

/-- `Corpus.__init__(out_of_vocabulary=-2)`. -/
def Corpus.init (oov : Int) : Corpus :=
  { counts_loose := []
    out_of_vocabulary := oov
    finalized := false
    keys_loose := []
    keys_counts := [] }

/-- `self.counts_loose[k] += v` on the association-list model of the
`defaultdict(int)` count table. -/
def bump : List (Int × Nat) → Int → Nat → List (Int × Nat)
  | [], k, v => [(k, v)]
  | (k', v') :: rest, k, v =>
    if k' = k then (k', v' + v) :: rest else (k', v') :: bump rest k v

/-- `Corpus.update_word_count(loose_array)`: asserts the corpus is not
finalized, then adds this batch's per-value occurrence counts
(`np.unique(..., return_counts=True)`) to the count table. -/
def Corpus.update_word_count (c : Corpus) (loose_array : List Int) :
    Except String Corpus :=
  if c.finalized then
    .error "Cannot update word counts after self.finalized()has been called"
  else
    .ok { c with
          counts_loose :=
            (npUnique loose_array).foldl
              (fun acc k => bump acc k (loose_array.count k)) c.counts_loose }

/-- A sequence of `update_word_count` calls. -/
def runUpdates (c : Corpus) : List (List Int) → Except String Corpus
  | [] => .ok c
  | b :: bs =>
    match c.update_word_count b with
    | .ok c2 => runUpdates c2 bs
    | .error e => .error e

/-- Descending order on (key, count) pairs by count, for
`_get_loose_keys_ordered`. -/
def countDescLe (a b : Int × Nat) : Prop := b.2 ≤ a.2

instance : DecidableRel countDescLe := fun a b => Nat.decLe b.2 a.2

instance : IsTotal (Int × Nat) countDescLe := ⟨fun a b => Nat.le_total b.2 a.2⟩

instance : IsTrans (Int × Nat) countDescLe := ⟨fun _ _ _ h1 h2 => le_trans h2 h1⟩

/-- `Corpus._get_loose_keys_ordered`, net effect: the count-table items
sorted by count descending (the source's tie order among equal counts is
implementation-defined; see the module docstring above). -/
def rankOrder (counts : List (Int × Nat)) : List (Int × Nat) :=
  List.insertionSort countDescLe counts

/-- `Corpus.finalize()`: computes `keys_loose` and `keys_counts` from the
ranking and flips the finalized flag.  On an empty count table the
source raises `IndexError` (`np.array([])[:, 0]`). -/
def Corpus.finalize (c : Corpus) : Except String Corpus :=
  if c.counts_loose.isEmpty then
    .error "IndexError: too many indices for array"
  else
    .ok { c with
          finalized := true
          keys_loose := (rankOrder c.counts_loose).map Prod.fst
          keys_counts := (rankOrder c.counts_loose).map Prod.snd }

/-- `self.keys_compact = np.arange(n_keys)`. -/
def Corpus.keys_compact (c : Corpus) : List Int :=
  (List.range c.keys_loose.length).map (fun i => Int.ofNat i)

/-- The `loose_to_compact` dict built by `finalize`. -/
def Corpus.loose_to_compact (c : Corpus) (l : Int) : Option Int :=
  (c.keys_loose.zip c.keys_compact).lookup l

/-- The `compact_to_loose` dict built by `finalize` (the inverse dict). -/
def Corpus.compact_to_loose (c : Corpus) (j : Int) : Option Int :=
  (c.keys_compact.zip c.keys_loose).lookup j

/-- `Corpus.filter_count(words_compact, min_count, max_count,
max_replacement, min_replacement)`: boolean-mask replacement driven by
`np.argmax(self.keys_counts < threshold)` on each enabled side. -/
def Corpus.filter_count (c : Corpus) (words_compact : List Int)
    (min_count max_count : Nat) (max_replacement min_replacement : Int) :
    Except String (List Int) :=
  if !c.finalized then
    .error "self.finalized() must be called before any other array ops"
  else
    let ret := words_compact
    let ret := if min_count ≠ 0 then
        let min_idx :=
          npArgmaxFirstTrue (c.keys_counts.map (fun cnt => decide (cnt < min_count)))
        ret.map (fun x => if (min_idx : Int) < x then min_replacement else x)
      else ret
    let ret := if max_count ≠ 0 then
        let max_idx :=
          npArgmaxFirstTrue (c.keys_counts.map (fun cnt => decide (cnt < max_count)))
        ret.map (fun x => if x < (max_idx : Int) then max_replacement else x)
      else ret
    .ok ret

/-- `Corpus.to_compact(word_loose)`: extends the key/value table with the
out-of-vocabulary values of the input, each mapped to the hardcoded
replacement `np.zeros_like(oov) - 1`, then calls `fast_replace`. -/
def Corpus.to_compact (c : Corpus) (word_loose : List Int) :
    Except String (List Int) :=
  if !c.finalized then
    .error "self.finalized() must be called before any other array ops"
  else
    let keys := c.keys_loose
    let reps := c.keys_compact
    let uniques := npUnique word_loose
    let oov := uniques.filter (fun u => !keys.contains u)
    let keys2 := keys ++ oov
    let reps2 := reps ++ oov.map (fun _ => (-1 : Int))
    fast_replace word_loose keys2 reps2 false

/-- `Corpus.to_loose(word_compact)`: asserts every value outside the
compact key range is negative, then replaces through the
`keys_compact → keys_loose` table. -/
def Corpus.to_loose (c : Corpus) (word_compact : List Int) :
    Except String (List Int) :=
  if !c.finalized then
    .error "self.finalized() must be called before any other array ops"
  else
    let uniques := npUnique word_compact
    let oov := uniques.filter (fun u => !(c.keys_compact).contains u)
    if oov.all (fun o => decide (o < 0)) then
      fast_replace word_compact c.keys_compact c.keys_loose false
    else
      .error "AssertionError: Found keys in word_compact not present in the corpus. Is this actually a compacted array?"

/-! ### Elementary facts about the numpy helpers -/

theorem npMax_eq_none {l : List Int} (h : npMax l = none) : l = [] := by
  cases l with
  | nil => rfl
  | cons x xs =>
    rw [npMax] at h
    cases hx : npMax xs <;> simp [hx] at h

theorem npMax_isSome {l : List Int} (h : l ≠ []) : ∃ m, npMax l = some m := by
  cases hm : npMax l with
  | none => exact absurd (npMax_eq_none hm) h
  | some m => exact ⟨m, rfl⟩

theorem npMax_mem : ∀ {l : List Int} {m : Int}, npMax l = some m → m ∈ l := by
  intro l
  induction l with
  | nil => intro m h; simp [npMax] at h
  | cons x xs ih =>
    intro m h
    rw [npMax] at h
    cases hx : npMax xs with
    | none => rw [hx] at h; cases h; exact List.mem_cons_self x xs
    | some m2 =>
      rw [hx] at h
      cases h
      rcases max_choice x m2 with hc | hc
      · rw [hc]; exact List.mem_cons_self x xs
      · rw [hc]; exact List.mem_cons_of_mem x (ih hx)

theorem le_npMax : ∀ {l : List Int} {x m : Int}, x ∈ l → npMax l = some m → x ≤ m := by
  intro l
  induction l with
  | nil => intro x m hx _; simp at hx
  | cons y ys ih =>
    intro x m hx h
    rw [npMax] at h
    cases hy : npMax ys with
    | none =>
      rw [hy] at h
      cases h
      rcases List.mem_cons.mp hx with hc | hc
      · exact le_of_eq hc
      · rw [npMax_eq_none hy] at hc; simp at hc
    | some m2 =>
      rw [hy] at h
      cases h
      rcases List.mem_cons.mp hx with hc | hc
      · rw [hc]; exact le_max_left _ _
      · exact le_trans (ih hc hy) (le_max_right _ _)

theorem lt_of_getElem_lt_digitize :
    ∀ {ks : List Int}, List.Pairwise (fun a b : Int => a ≤ b) ks →
      ∀ {x : Int} {j : Nat}, j < digitizeRight ks x →
        ∃ kj, ks[j]? = some kj ∧ kj < x := by
  intro ks
  induction ks with
  | nil => intro _ x j h; simp [digitizeRight] at h
  | cons k0 rest ih =>
    intro hs x j h
    by_cases hk : k0 < x
    · rw [digitizeRight, List.countP_cons_of_pos _ _ (by simpa using hk)] at h
      cases j with
      | zero => exact ⟨k0, by simp, hk⟩
      | succ j2 =>
        obtain ⟨kj, hkj, hlt⟩ := ih hs.of_cons (Nat.lt_of_succ_lt_succ h)
        exact ⟨kj, by simpa using hkj, hlt⟩
    · exfalso
      have hzero : digitizeRight (k0 :: rest) x = 0 := by
        rw [digitizeRight]
        refine List.countP_eq_zero.mpr ?_
        intro a ha
        rcases List.mem_cons.mp ha with hc | hc
        · subst hc; simpa using hk
        · have h1 : k0 ≤ a := (List.pairwise_cons.mp hs).1 a hc
          have h2 : x ≤ k0 := not_lt.mp hk
          simp only [decide_eq_true_eq]
          exact not_lt.mpr (le_trans h2 h1)
      omega

theorem le_of_digitize_le :
    ∀ {ks : List Int}, List.Pairwise (fun a b : Int => a ≤ b) ks →
      ∀ {x : Int} {j : Nat} {kj : Int}, digitizeRight ks x ≤ j → ks[j]? = some kj →
        x ≤ kj := by
  intro ks
  induction ks with
  | nil => intro _ x j kj _ hj; simp at hj
  | cons k0 rest ih =>
    intro hs x j kj hle hj
    by_cases hk : k0 < x
    · rw [digitizeRight, List.countP_cons_of_pos _ _ (by simpa using hk)] at hle
      cases j with
      | zero => omega
      | succ j2 =>
        rw [List.getElem?_cons_succ] at hj
        exact ih hs.of_cons (by rw [digitizeRight]; omega) hj
    · have hxk : x ≤ k0 := not_lt.mp hk
      cases j with
      | zero =>
        simp only [List.getElem?_cons_zero, Option.some.injEq] at hj
        subst hj; exact hxk
      | succ j2 =>
        rw [List.getElem?_cons_succ] at hj
        have hmem : kj ∈ rest := List.mem_iff_getElem?.mpr ⟨j2, hj⟩
        exact le_trans hxk ((List.pairwise_cons.mp hs).1 kj hmem)

/-! ### Facts about `mapExcept` and zip lookup -/

theorem mapExcept_ok {f : Int → Except String Int} :
    ∀ {l : List Int}, (∀ x ∈ l, ∃ v, f x = .ok v) →
      ∃ out : List Int, mapExcept f l = .ok out ∧ out.length = l.length ∧
        ∀ (i : Nat) (x : Int), l[i]? = some x → ∃ v, f x = .ok v ∧ out[i]? = some v := by
  intro l
  induction l with
  | nil =>
    intro _
    refine ⟨[], rfl, rfl, ?_⟩
    intro i x h; simp at h
  | cons a as ih =>
    intro h
    obtain ⟨v, hv⟩ := h a (List.mem_cons_self a as)
    obtain ⟨out, hout, hlen, hidx⟩ := ih (fun x hx => h x (List.mem_cons_of_mem a hx))
    refine ⟨v :: out, ?_, by simp [hlen], ?_⟩
    · rw [mapExcept, hv, hout]
    · intro i x hx
      cases i with
      | zero =>
        simp only [List.getElem?_cons_zero, Option.some.injEq] at hx
        subst hx
        exact ⟨v, hv, by simp⟩
      | succ i2 =>
        rw [List.getElem?_cons_succ] at hx ⊢
        exact hidx i2 x hx

theorem mapExcept_ok_or_ixerr {f : Int → Except String Int} {E : String}
    (hf : ∀ x, (∃ v, f x = .ok v) ∨ f x = .error E) :
    ∀ (l : List Int), (∃ out, mapExcept f l = .ok out) ∨ mapExcept f l = .error E := by
  intro l
  induction l with
  | nil => exact Or.inl ⟨[], rfl⟩
  | cons a as ih =>
    rcases hf a with ⟨v, hv⟩ | hv
    · rcases ih with ⟨out, hout⟩ | hout
      · exact Or.inl ⟨v :: out, by rw [mapExcept, hv, hout]⟩
      · exact Or.inr (by rw [mapExcept, hv, hout])
    · exact Or.inr (by rw [mapExcept, hv])

theorem pair_mem_zip {α β : Type} {l1 : List α} {l2 : List β} {i : Nat} {a : α} {b : β}
    (h1 : l1[i]? = some a) (h2 : l2[i]? = some b) : (a, b) ∈ l1.zip l2 :=
  List.mem_iff_getElem?.mpr ⟨i, List.getElem?_zip_eq_some.mpr ⟨h1, h2⟩⟩

theorem mem_zip_getElem {α β : Type} {l1 : List α} {l2 : List β} {a : α} {b : β}
    (h : (a, b) ∈ l1.zip l2) : ∃ i : Nat, l1[i]? = some a ∧ l2[i]? = some b := by
  obtain ⟨i, hi⟩ := List.mem_iff_getElem?.mp h
  exact ⟨i, List.getElem?_zip_eq_some.mp hi⟩

theorem zip_swap_mem {α β : Type} {l1 : List α} {l2 : List β} {a : α} {b : β}
    (h : (a, b) ∈ l1.zip l2) : (b, a) ∈ l2.zip l1 := by
  obtain ⟨i, h1, h2⟩ := mem_zip_getElem h
  exact pair_mem_zip h2 h1

theorem getElem?_inj_of_nodup {α : Type} {l : List α} (h : l.Nodup) {i j : Nat} {a : α}
    (hi : l[i]? = some a) (hj : l[j]? = some a) : i = j := by
  obtain ⟨hi1, hi2⟩ := List.getElem?_eq_some_iff.mp hi
  obtain ⟨hj1, hj2⟩ := List.getElem?_eq_some_iff.mp hj
  exact (List.Nodup.getElem_inj_iff h).mp (by rw [hi2, hj2])

theorem zip_pair_unique {α β : Type} {l1 : List α} {l2 : List β} (h : l1.Nodup)
    {a : α} {b b2 : β}
    (h1 : (a, b) ∈ l1.zip l2) (h2 : (a, b2) ∈ l1.zip l2) : b = b2 := by
  obtain ⟨i, hi1, hi2⟩ := mem_zip_getElem h1
  obtain ⟨j, hj1, hj2⟩ := mem_zip_getElem h2
  have hij : i = j := getElem?_inj_of_nodup h hi1 hj1
  subst hij
  rw [hi2] at hj2
  exact Option.some.inj hj2

theorem lookup_zip_of_nodup :
    ∀ {l1 l2 : List Int}, l1.Nodup → ∀ {i : Nat} {a b : Int},
      l1[i]? = some a → l2[i]? = some b → (l1.zip l2).lookup a = some b := by
  intro l1
  induction l1 with
  | nil => intro l2 _ i a b h1 _; simp at h1
  | cons x xs ih =>
    intro l2 hnd i a b h1 h2
    cases l2 with
    | nil => simp at h2
    | cons y ys =>
      cases i with
      | zero =>
        simp only [List.getElem?_cons_zero, Option.some.injEq] at h1 h2
        subst h1; subst h2
        simp [List.zip_cons_cons, List.lookup_cons]
      | succ i2 =>
        rw [List.getElem?_cons_succ] at h1 h2
        have hmem : a ∈ xs := List.mem_iff_getElem?.mpr ⟨i2, h1⟩
        have hne : a ≠ x := by
          intro hc; subst hc
          exact ((List.nodup_cons.mp hnd).1 hmem)
        have hbeq : (a == x) = false := beq_eq_false_iff_ne.mpr hne
        rw [List.zip_cons_cons, List.lookup_cons, hbeq]
        exact ih (List.nodup_cons.mp hnd).2 h1 h2

theorem lookup_zip_some :
    ∀ {l1 l2 : List Int} {a b : Int}, (l1.zip l2).lookup a = some b →
      ∃ i : Nat, l1[i]? = some a ∧ l2[i]? = some b := by
  intro l1
  induction l1 with
  | nil => intro l2 a b h; exact Option.noConfusion h
  | cons x xs ih =>
    intro l2 a b h
    cases l2 with
    | nil => exact Option.noConfusion h
    | cons y ys =>
      rw [List.zip_cons_cons, List.lookup_cons] at h
      by_cases hax : a = x
      · subst hax
        simp only [beq_self_eq_true] at h
        cases h
        exact ⟨0, by simp, by simp⟩
      · have : (a == x) = false := beq_eq_false_iff_ne.mpr hax
        rw [this] at h
        obtain ⟨i, h1, h2⟩ := ih h
        exact ⟨i + 1, by simpa using h1, by simpa using h2⟩

/-! ### The replace-by-binary-search core of `fast_replace` -/

theorem replaceElem_spec {keys values : List Int} (hlen : keys.length = values.length)
    {x : Int} (hx : ∃ k ∈ keys, x ≤ k) :
    ∃ k v, (k, v) ∈ keys.zip values ∧ x ≤ k ∧
      (∀ k2 ∈ keys, x ≤ k2 → k ≤ k2) ∧ (x ∈ keys → k = x) ∧
      replaceElem (sortPairs (keys.zip values)) x = .ok v := by
  set s := sortPairs (keys.zip values) with hs
  have hperm : s.Perm (keys.zip values) := List.perm_insertionSort keyLe _
  have hsorted_pairs : List.Pairwise keyLe s := List.sorted_insertionSort keyLe _
  have hmapfst : (keys.zip values).map Prod.fst = keys :=
    List.map_fst_zip keys values (le_of_eq hlen)
  have hskeys_perm : (s.map Prod.fst).Perm keys := by
    have h2 := hperm.map Prod.fst
    rwa [hmapfst] at h2
  have hsorted : List.Pairwise (fun a b : Int => a ≤ b) (s.map Prod.fst) :=
    List.pairwise_map.mpr hsorted_pairs
  obtain ⟨kx, hkx_mem, hkx_le⟩ := hx
  have hkx_mem2 : kx ∈ s.map Prod.fst := hskeys_perm.mem_iff.mpr hkx_mem
  obtain ⟨jx, hjx⟩ := List.mem_iff_getElem?.mp hkx_mem2
  have hidx_ge : ∀ (j : Nat) (k2 : Int), (s.map Prod.fst)[j]? = some k2 → x ≤ k2 →
      digitizeRight (s.map Prod.fst) x ≤ j := by
    intro j k2 hj hxk2
    by_contra hlt
    push_neg at hlt
    obtain ⟨kj, hkj, hkjlt⟩ := lt_of_getElem_lt_digitize hsorted hlt
    rw [hj] at hkj
    have hk2kj : k2 = kj := Option.some.inj hkj
    subst hk2kj
    exact absurd hxk2 (not_le.mpr hkjlt)
  have hcnt_le : digitizeRight (s.map Prod.fst) x ≤ jx := hidx_ge jx kx hjx hkx_le
  have hjx_lt : jx < (s.map Prod.fst).length := (List.getElem?_eq_some_iff.mp hjx).1
  have hcnt_lt : digitizeRight (s.map Prod.fst) x < (s.map Prod.fst).length :=
    lt_of_le_of_lt hcnt_le hjx_lt
  obtain ⟨k0, hq⟩ : ∃ k0, (s.map Prod.fst)[digitizeRight (s.map Prod.fst) x]? = some k0 := by
    rw [List.getElem?_eq_getElem hcnt_lt]
    exact ⟨_, rfl⟩
  have hxk0 : x ≤ k0 := le_of_digitize_le hsorted (le_refl _) hq
  have hmap := List.getElem?_map Prod.fst s (digitizeRight (s.map Prod.fst) x)
  rw [hq] at hmap
  cases hp : s[digitizeRight (s.map Prod.fst) x]? with
  | none =>
    rw [hp] at hmap
    exact Option.noConfusion hmap
  | some p =>
    rw [hp] at hmap
    have hk0p : k0 = p.1 := Option.some.inj hmap
    have hvsnd : (s.map Prod.snd)[digitizeRight (s.map Prod.fst) x]? = some p.2 := by
      rw [List.getElem?_map Prod.snd s _, hp]
      rfl
    have hrepl : replaceElem s x = .ok p.2 := by
      rw [replaceElem, hvsnd]
    have hpmem : p ∈ s := List.mem_iff_getElem?.mpr ⟨_, hp⟩
    have hpzip : p ∈ keys.zip values := hperm.mem_iff.mp hpmem
    have hmin : ∀ k2 ∈ keys, x ≤ k2 → k0 ≤ k2 := by
      intro k2 hk2 hxk2
      have hk2m : k2 ∈ s.map Prod.fst := hskeys_perm.mem_iff.mpr hk2
      obtain ⟨j2, hj2⟩ := List.mem_iff_getElem?.mp hk2m
      have hge : digitizeRight (s.map Prod.fst) x ≤ j2 := hidx_ge j2 k2 hj2 hxk2
      rcases Nat.lt_or_ge (digitizeRight (s.map Prod.fst) x) j2 with hlt | hge2
      · obtain ⟨hj2lt, hj2val⟩ := List.getElem?_eq_some_iff.mp hj2
        obtain ⟨hcntlt, hcntval⟩ := List.getElem?_eq_some_iff.mp hq
        have hrel := List.pairwise_iff_getElem.mp hsorted _ _ hcntlt hj2lt hlt
        rw [hcntval, hj2val] at hrel
        exact hrel
      · have hj2cnt : j2 = digitizeRight (s.map Prod.fst) x := le_antisymm hge2 hge
        rw [hj2cnt, hq] at hj2
        exact le_of_eq (Option.some.inj hj2)
    have hexact : x ∈ keys → k0 = x := fun hxmem =>
      le_antisymm (hmin x hxmem (le_refl x)) hxk0
    refine ⟨k0, p.2, ?_, hxk0, hmin, hexact, hrepl⟩
    rw [hk0p, Prod.mk.eta]
    exact hpzip

theorem fast_replace_spec {data keys values : List Int}
    (hlen : keys.length = values.length) (hne : data ≠ [])
    (hcov : ∀ x ∈ data, ∃ k ∈ keys, x ≤ k) :
    ∃ out : List Int, fast_replace data keys values false = .ok out ∧
      out.length = data.length ∧
      ∀ (i : Nat) (x : Int), data[i]? = some x →
        ∃ k v, (k, v) ∈ keys.zip values ∧ x ≤ k ∧
          (∀ k2 ∈ keys, x ≤ k2 → k ≤ k2) ∧ (x ∈ keys → k = x) ∧
          out[i]? = some v := by
  obtain ⟨dm, hdm⟩ := npMax_isSome hne
  have hkeys_ne : keys ≠ [] := by
    obtain ⟨x0, hx0⟩ := List.exists_mem_of_ne_nil data hne
    obtain ⟨k, hk, _⟩ := hcov x0 hx0
    exact List.ne_nil_of_mem hk
  obtain ⟨km, hkm⟩ := npMax_isSome hkeys_ne
  have hdmkm : dm ≤ km := by
    obtain ⟨k, hk, hdk⟩ := hcov dm (npMax_mem hdm)
    exact le_trans hdk (le_npMax hk hkm)
  have hfr : fast_replace data keys values false =
      mapExcept (replaceElem (sortPairs (keys.zip values))) data := by
    unfold fast_replace
    rw [hdm, hkm, if_neg (by simp [hlen])]
    simp [hdmkm]
  have helem : ∀ x ∈ data, ∃ v, replaceElem (sortPairs (keys.zip values)) x = .ok v := by
    intro x hx
    obtain ⟨k, v, _, _, _, _, hr⟩ := replaceElem_spec hlen (hcov x hx)
    exact ⟨v, hr⟩
  obtain ⟨out, hout, hlo, hidx⟩ := mapExcept_ok helem
  refine ⟨out, by rw [hfr]; exact hout, hlo, ?_⟩
  intro i x hxi
  obtain ⟨v, hfv, hov⟩ := hidx i x hxi
  obtain ⟨k, v2, hkv, hxk, hmin, hex, hr2⟩ :=
    replaceElem_spec hlen (hcov x (List.mem_iff_getElem?.mpr ⟨i, hxi⟩))
  rw [hfv] at hr2
  have hv : v = v2 := Except.ok.inj hr2
  subst hv
  exact ⟨k, v, hkv, hxk, hmin, hex, hov⟩

/-! ### Bookkeeping for the counting phase -/

/-- The loose identifiers currently in the count table. -/
def countsKeys (c : Corpus) : List Int := c.counts_loose.map Prod.fst

/-- The total of all counts in the count table. -/
def sumCounts (c : Corpus) : Nat := (c.counts_loose.map Prod.snd).sum

theorem bump_cons_eq (k : Int) (v v2 : Nat) (rest : List (Int × Nat)) :
    bump ((k, v2) :: rest) k v = (k, v2 + v) :: rest := by
  rw [bump, if_pos rfl]

theorem bump_cons_ne {k2 k : Int} (h : k2 ≠ k) (v v2 : Nat) (rest : List (Int × Nat)) :
    bump ((k2, v2) :: rest) k v = (k2, v2) :: bump rest k v := by
  rw [bump, if_neg h]

theorem bump_fst_mem : ∀ (l : List (Int × Nat)) (k : Int) (v : Nat) (a : Int),
    a ∈ (bump l k v).map Prod.fst ↔ a ∈ l.map Prod.fst ∨ a = k := by
  intro l k v a
  induction l with
  | nil => simp [bump]
  | cons p rest ih =>
    obtain ⟨k2, v2⟩ := p
    by_cases hk : k2 = k
    · subst hk
      rw [bump_cons_eq]
      simp only [List.map_cons, List.mem_cons]
      tauto
    · rw [bump_cons_ne hk]
      simp only [List.map_cons, List.mem_cons, ih]
      tauto

theorem bump_fst_nodup (k : Int) (v : Nat) :
    ∀ (l : List (Int × Nat)),
      (l.map Prod.fst).Nodup → ((bump l k v).map Prod.fst).Nodup := by
  intro l
  induction l with
  | nil => intro _; simp [bump]
  | cons p rest ih =>
    intro h
    obtain ⟨k2, v2⟩ := p
    simp only [List.map_cons, List.nodup_cons] at h
    by_cases hk : k2 = k
    · subst hk
      rw [bump_cons_eq]
      simp only [List.map_cons, List.nodup_cons]
      exact h
    · rw [bump_cons_ne hk]
      simp only [List.map_cons, List.nodup_cons]
      refine ⟨?_, ih h.2⟩
      intro hc
      rcases (bump_fst_mem rest k v k2).mp hc with hc2 | hc2
      · exact h.1 hc2
      · exact hk hc2

theorem bump_snd_sum (k : Int) (v : Nat) :
    ∀ (l : List (Int × Nat)),
      ((bump l k v).map Prod.snd).sum = (l.map Prod.snd).sum + v := by
  intro l
  induction l with
  | nil => simp [bump]
  | cons p rest ih =>
    obtain ⟨k2, v2⟩ := p
    by_cases hk : k2 = k
    · subst hk
      rw [bump_cons_eq]
      simp only [List.map_cons, List.sum_cons]
      omega
    · rw [bump_cons_ne hk]
      simp only [List.map_cons, List.sum_cons, ih]
      omega

theorem foldl_bump_fst_mem (b : List Int) :
    ∀ (us : List Int) (acc : List (Int × Nat)) (a : Int),
      a ∈ ((us.foldl (fun acc2 u => bump acc2 u (b.count u)) acc).map Prod.fst) ↔
        a ∈ acc.map Prod.fst ∨ a ∈ us := by
  intro us
  induction us with
  | nil => intro acc a; simp
  | cons u us2 ih =>
    intro acc a
    rw [List.foldl_cons, ih, bump_fst_mem]
    simp only [List.mem_cons]
    tauto

theorem foldl_bump_fst_nodup (b : List Int) :
    ∀ (us : List Int) (acc : List (Int × Nat)),
      (acc.map Prod.fst).Nodup →
      ((us.foldl (fun acc2 u => bump acc2 u (b.count u)) acc).map Prod.fst).Nodup := by
  intro us
  induction us with
  | nil => intro acc h; simpa using h
  | cons u us2 ih =>
    intro acc h
    rw [List.foldl_cons]
    exact ih _ (bump_fst_nodup u (b.count u) acc h)

theorem foldl_bump_snd_sum (b : List Int) :
    ∀ (us : List Int) (acc : List (Int × Nat)),
      ((us.foldl (fun acc2 u => bump acc2 u (b.count u)) acc).map Prod.snd).sum =
        (acc.map Prod.snd).sum + (us.map (fun u => b.count u)).sum := by
  intro us
  induction us with
  | nil => intro acc; simp
  | cons u us2 ih =>
    intro acc
    rw [List.foldl_cons, ih, bump_snd_sum]
    simp only [List.map_cons, List.sum_cons]
    omega

theorem mem_npUnique {l : List Int} {a : Int} : a ∈ npUnique l ↔ a ∈ l := by
  rw [npUnique, List.mem_dedup, List.mem_insertionSort]

theorem npUnique_nodup (l : List Int) : (npUnique l).Nodup :=
  List.nodup_dedup _

theorem npUnique_sum_counts (b : List Int) :
    ((npUnique b).map (fun u => b.count u)).sum = b.length := by
  have hperm : (List.insertionSort intLe b).Perm b := List.perm_insertionSort intLe b
  have h1 : ((npUnique b).map (fun u => b.count u)) =
      ((npUnique b).map (fun u => (List.insertionSort intLe b).count u)) := by
    apply List.map_congr_left
    intro a _
    exact (hperm.count_eq a).symm
  rw [h1, npUnique, List.sum_map_count_dedup_eq_length]
  exact hperm.length_eq

theorem update_spec {c : Corpus} (h : c.finalized = false) (b : List Int) :
    ∃ c2 : Corpus, c.update_word_count b = .ok c2 ∧
      c2.finalized = false ∧
      c2.out_of_vocabulary = c.out_of_vocabulary ∧
      c2.keys_loose = c.keys_loose ∧
      c2.keys_counts = c.keys_counts ∧
      (∀ a, a ∈ countsKeys c2 ↔ a ∈ countsKeys c ∨ a ∈ b) ∧
      ((countsKeys c).Nodup → (countsKeys c2).Nodup) ∧
      sumCounts c2 = sumCounts c + b.length := by
  refine ⟨{ c with counts_loose := List.foldl (fun acc k => bump acc k (b.count k)) c.counts_loose (npUnique b) },
    by rw [Corpus.update_word_count, if_neg (by simp [h])], h, rfl, rfl, rfl,
    ?_, ?_, ?_⟩
  · intro a
    simp only [countsKeys]
    rw [foldl_bump_fst_mem, mem_npUnique]
  · intro hnd
    simp only [countsKeys] at hnd ⊢
    exact foldl_bump_fst_nodup b (npUnique b) c.counts_loose hnd
  · simp only [sumCounts]
    rw [foldl_bump_snd_sum, npUnique_sum_counts]

theorem runUpdates_spec :
    ∀ {batches : List (List Int)} {c c0 : Corpus},
      runUpdates c batches = .ok c0 →
      c0.finalized = c.finalized ∧
      c0.out_of_vocabulary = c.out_of_vocabulary ∧
      c0.keys_loose = c.keys_loose ∧
      c0.keys_counts = c.keys_counts ∧
      (∀ a, a ∈ countsKeys c0 ↔ a ∈ countsKeys c ∨ ∃ b ∈ batches, a ∈ b) ∧
      ((countsKeys c).Nodup → (countsKeys c0).Nodup) ∧
      sumCounts c0 = sumCounts c + (batches.map List.length).sum := by
  intro batches
  induction batches with
  | nil =>
    intro c c0 h
    rw [runUpdates] at h
    injection h with h2
    subst h2
    exact ⟨rfl, rfl, rfl, rfl, fun a => by simp, fun h2 => h2, by simp⟩
  | cons b bs ih =>
    intro c c0 h
    rw [runUpdates] at h
    cases hf : c.finalized with
    | true =>
      rw [Corpus.update_word_count] at h
      rw [if_pos (by rw [hf])] at h
      exact Except.noConfusion h
    | false =>
      obtain ⟨c2, hup, hfin2, hoov2, hkl2, hkc2, hmem2, hnd2, hsum2⟩ := update_spec hf b
      rw [hup] at h
      have h9 : runUpdates c2 bs = .ok c0 := h
      obtain ⟨h1, h2, h3, h4, h5, h6, h7⟩ := ih h9
      refine ⟨by rw [h1, hfin2], by rw [h2, hoov2], by rw [h3, hkl2],
        by rw [h4, hkc2], ?_, ?_, ?_⟩
      · intro a
        rw [h5 a, hmem2 a, List.exists_mem_cons_iff]
        tauto
      · intro hnd
        exact h6 (hnd2 hnd)
      · rw [h7, hsum2]
        simp only [List.map_cons, List.sum_cons]
        omega

theorem finalize_spec {c0 c : Corpus} (h : c0.finalize = .ok c) :
    c.counts_loose = c0.counts_loose ∧
    c.out_of_vocabulary = c0.out_of_vocabulary ∧
    c.finalized = true ∧
    c.keys_loose = (rankOrder c0.counts_loose).map Prod.fst ∧
    c.keys_counts = (rankOrder c0.counts_loose).map Prod.snd ∧
    c0.counts_loose ≠ [] := by
  rw [Corpus.finalize] at h
  by_cases he : c0.counts_loose.isEmpty
  · rw [if_pos he] at h
    exact Except.noConfusion h
  · rw [if_neg he] at h
    injection h with h2
    subst h2
    refine ⟨rfl, rfl, rfl, rfl, rfl, by simpa [List.isEmpty_iff] using he⟩

theorem keys_compact_length (c : Corpus) :
    c.keys_compact.length = c.keys_loose.length := by
  rw [Corpus.keys_compact, List.length_map, List.length_range]

theorem keys_compact_getElem (c : Corpus) {i : Nat} (h : i < c.keys_loose.length) :
    c.keys_compact[i]? = some (i : Int) := by
  rw [Corpus.keys_compact, List.getElem?_map, List.getElem?_range h]
  rfl

theorem keys_compact_nodup (c : Corpus) : c.keys_compact.Nodup := by
  rw [Corpus.keys_compact]
  refine (List.nodup_range _).map ?_
  intro a b hab
  exact Int.ofNat.inj hab

theorem keys_compact_mem (c : Corpus) {j : Int} :
    j ∈ c.keys_compact ↔ ∃ i : Nat, i < c.keys_loose.length ∧ j = (i : Int) := by
  rw [Corpus.keys_compact]
  simp only [List.mem_map, List.mem_range]
  constructor
  · rintro ⟨i, hi, hij⟩
    exact ⟨i, hi, hij.symm⟩
  · rintro ⟨i, hi, hij⟩
    exact ⟨i, hi, hij.symm⟩

/-- The combined facts about a corpus produced by `init`, a sequence of
`update_word_count` calls, and `finalize`. -/
theorem finalized_facts {oov : Int} {batches : List (List Int)} {c0 c : Corpus}
    (hrun : runUpdates (Corpus.init oov) batches = .ok c0)
    (hfin : c0.finalize = .ok c) :
    c.finalized = true ∧
    c.keys_loose.Nodup ∧
    c.keys_loose ≠ [] ∧
    c.keys_loose.length = c.keys_counts.length ∧
    (∀ a, a ∈ c.keys_loose ↔ ∃ b ∈ batches, a ∈ b) ∧
    c.keys_counts.Pairwise (fun a b : Nat => b ≤ a) ∧
    c.keys_counts.sum = (batches.map List.length).sum ∧
    c.out_of_vocabulary = oov := by
  obtain ⟨hf0, hoov0, _, _, hmem0, hnd0, hsum0⟩ := runUpdates_spec hrun
  obtain ⟨hcl, hoov, hfin2, hkl, hkc, hne⟩ := finalize_spec hfin
  have hperm : (rankOrder c0.counts_loose).Perm c0.counts_loose :=
    List.perm_insertionSort countDescLe c0.counts_loose
  have hkeysperm : ((rankOrder c0.counts_loose).map Prod.fst).Perm (countsKeys c0) :=
    hperm.map Prod.fst
  have hndc0 : (countsKeys c0).Nodup := hnd0 (by simp [countsKeys, Corpus.init])
  refine ⟨hfin2, ?_, ?_, ?_, ?_, ?_, ?_, by rw [hoov, hoov0]; rfl⟩
  · rw [hkl]
    exact hkeysperm.nodup_iff.mpr hndc0
  · rw [hkl]
    intro hnil
    have h2 : rankOrder c0.counts_loose = [] := List.map_eq_nil_iff.mp hnil
    rw [h2] at hperm
    exact hne hperm.symm.eq_nil
  · rw [hkl, hkc]
    simp
  · intro a
    rw [hkl]
    have h3 : a ∈ (rankOrder c0.counts_loose).map Prod.fst ↔ a ∈ countsKeys c0 :=
      hkeysperm.mem_iff
    rw [h3, hmem0 a]
    simp [countsKeys, Corpus.init]
  · rw [hkc]
    exact List.pairwise_map.mpr (List.sorted_insertionSort countDescLe c0.counts_loose)
  · rw [hkc]
    have h4 : ((rankOrder c0.counts_loose).map Prod.snd).Perm
        (c0.counts_loose.map Prod.snd) := hperm.map Prod.snd
    rw [h4.sum_eq]
    have h5 : sumCounts c0 = (c0.counts_loose.map Prod.snd).sum := rfl
    rw [← h5, hsum0]
    simp [sumCounts, Corpus.init]

/-! ### Concrete corpora used by the claim theorems -/

instance {ε α : Type} [DecidableEq ε] [DecidableEq α] : DecidableEq (Except ε α) :=
  fun a b =>
    match a, b with
    | .ok x, .ok y =>
      if h : x = y then .isTrue (by rw [h]) else .isFalse (fun hc => h (Except.ok.inj hc))
    | .error e, .error f =>
      if h : e = f then .isTrue (by rw [h]) else .isFalse (fun hc => h (Except.error.inj hc))
    | .ok _, .error _ => .isFalse (fun hc => Except.noConfusion hc)
    | .error _, .ok _ => .isFalse (fun hc => Except.noConfusion hc)

/-- The spec's concrete scenario after counting `[2,2,2,2,3,3,3,4]`
(counts: 2 seen 4 times, 3 seen 3 times, 4 seen once), before `finalize`. -/
def corpusScenario0 : Corpus :=
  { counts_loose := [(2, 4), (3, 3), (4, 1)]
    out_of_vocabulary := -2
    finalized := false
    keys_loose := []
    keys_counts := [] }

/-- The scenario corpus after `finalize`:
`keys_loose = [2,3,4]`, `keys_counts = [4,3,1]`. -/
def corpusScenario : Corpus :=
  { counts_loose := [(2, 4), (3, 3), (4, 1)]
    out_of_vocabulary := -2
    finalized := true
    keys_loose := [2, 3, 4]
    keys_counts := [4, 3, 1] }

/-- The filter-boundary corpus before `finalize`: counts 10, 8, 8, 3, 1 for
loose identifiers 5, 6, 7, 8, 9. -/
def corpusRanked0 : Corpus :=
  { counts_loose := [(5, 10), (6, 8), (7, 8), (8, 3), (9, 1)]
    out_of_vocabulary := -2
    finalized := false
    keys_loose := []
    keys_counts := [] }

/-- The filter-boundary corpus after `finalize`:
`keys_counts = [10,8,8,3,1]` at ranks 0 through 4. -/
def corpusRanked : Corpus :=
  { counts_loose := [(5, 10), (6, 8), (7, 8), (8, 3), (9, 1)]
    out_of_vocabulary := -2
    finalized := true
    keys_loose := [5, 6, 7, 8, 9]
    keys_counts := [10, 8, 8, 3, 1] }

/-! ### Claim theorems -/

/-- C1: in the spec's concrete scenario (corpus constructed with
out-of-vocabulary sentinel -2, counted over `[2,2,2,2,3,3,3,4]`, then
finalized), `to_compact([2,3,4,99])` maps the never-seen identifier 99 to
the hardcoded value -1 (`np.zeros_like(oov) - 1` in the source), not to
the configured sentinel `self.out_of_vocabulary = -2`.  The stored
`out_of_vocabulary` attribute is never read by `to_compact`, so the
claim's expected output `[0,1,2,-2]` is refuted at this input. -/
theorem C1_to_compact_oov_hardcoded :
    runUpdates (Corpus.init (-2)) [[2, 2, 2, 2, 3, 3, 3, 4]] = .ok corpusScenario0 ∧
    corpusScenario0.finalize = .ok corpusScenario ∧
    corpusScenario.out_of_vocabulary = -2 ∧
    corpusScenario.to_compact [2, 3, 4, 99] = .ok [0, 1, 2, -1] ∧
    corpusScenario.to_compact [2, 3, 4, 99] ≠ .ok [0, 1, 2, -2] :=
  ⟨rfl, rfl, rfl, rfl, by decide⟩

/-- C2: when every entry of `keys_counts` satisfies the (nonzero)
`min_count` threshold, `filter_count` still replaces: the boolean mask
`keys_counts < min_count` is all `False`, `np.argmax` of it returns 0,
and `ret[ret > 0] = min_replacement` wipes out every compact identifier
except rank 0.  With counts `[4,3,1]` (all at least 1) and
`min_count = 1`, the input `[0,1,2]` comes back as `[0,-1,-1]`, not
unchanged as the claim requires. -/
theorem C2_filter_count_no_crossing_bug :
    (∀ cnt ∈ corpusScenario.keys_counts, 1 ≤ cnt) ∧
    corpusScenario.filter_count [0, 1, 2] 1 0 (-1) (-1) = .ok [0, -1, -1] ∧
    (Except.ok [0, -1, -1] : Except String (List Int)) ≠ .ok [0, 1, 2] :=
  ⟨by decide, rfl, by decide⟩

/-- C3: with `keys_counts = [10,8,8,3,1]` and `min_count = 5`, the first
rank whose count drops below 5 is rank 3 (count 3), but the source
replaces only compact identifiers strictly greater than that index
(`ret[ret > min_idx]`), so rank 3 itself — whose count 3 is below the
threshold — survives: `filter_count([0,1,2,3,4])` returns `[0,1,2,3,-1]`,
not `[0,1,2,-1,-1]` as the claim requires. -/
theorem C3_filter_count_boundary_bug :
    runUpdates (Corpus.init (-2))
      [List.replicate 10 5 ++ List.replicate 8 6 ++ List.replicate 8 7 ++
        List.replicate 3 8 ++ [9]] = .ok corpusRanked0 ∧
    corpusRanked0.finalize = .ok corpusRanked ∧
    corpusRanked.keys_counts = [10, 8, 8, 3, 1] ∧
    corpusRanked.filter_count [0, 1, 2, 3, 4] 5 0 (-1) (-1) = .ok [0, 1, 2, 3, -1] ∧
    (Except.ok [0, 1, 2, 3, -1] : Except String (List Int)) ≠ .ok [0, 1, 2, -1, -1] :=
  ⟨rfl, rfl, rfl, rfl, by decide⟩

/-- C4 counterexample: in full-checking mode (`skip_checks = False`), the
element 2 is absent from the keys `[1,3]` but does not exceed the maximum
key, so the coarse check passes — and `fast_replace` silently returns the
replacement value 30 of the neighbouring key 3, exactly the behaviour the
claim rules out. -/
theorem C4_counterexample :
    ((2 : Int) ∉ ([1, 3] : List Int)) ∧
    fast_replace [2] [1, 3] [10, 30] false = .ok [30] :=
  ⟨by decide, rfl⟩

/-- C4 (amended): in full-checking mode, an element of `data` that is
absent from `keys` but bounded by some key is not rejected: the
right-biased binary search silently maps it to the value paired with the
smallest key not less than it. -/
theorem C4_near_match_takes_next_key {data keys values : List Int} {i : Nat} {x : Int}
    (hlen : keys.length = values.length)
    (hcov : ∀ e ∈ data, ∃ k ∈ keys, e ≤ k)
    (hi : data[i]? = some x) (habs : x ∉ keys) :
    ∃ out k v, fast_replace data keys values false = .ok out ∧
      (k, v) ∈ keys.zip values ∧ x < k ∧
      (∀ k2 ∈ keys, x ≤ k2 → k ≤ k2) ∧
      out[i]? = some v := by
  have hne : data ≠ [] := List.ne_nil_of_mem (List.mem_iff_getElem?.mpr ⟨i, hi⟩)
  obtain ⟨out, hok, _, hidx⟩ := fast_replace_spec hlen hne hcov
  obtain ⟨k, v, hkv, hxk, hmin, _, hov⟩ := hidx i x hi
  have hkmem : k ∈ keys := (List.of_mem_zip hkv).1
  have hxltk : x < k := lt_of_le_of_ne hxk (fun hc => habs (hc ▸ hkmem))
  exact ⟨out, k, v, hok, hkv, hxltk, hmin, hov⟩

/-- C4 witness: the amended statement evaluated at
`fast_replace([2], [1,3], [10,30])`. -/
theorem C4_witness :
    ∃ (out : List Int) (k v : Int),
      fast_replace [2] [1, 3] [10, 30] false = .ok out ∧
      (k, v) ∈ ([1, 3] : List Int).zip ([10, 30] : List Int) ∧ (2 : Int) < k ∧
      (∀ k2 ∈ ([1, 3] : List Int), (2 : Int) ≤ k2 → k ≤ k2) ∧
      out[0]? = some v :=
  C4_near_match_takes_next_key (by decide) (by decide) (by decide) (by decide)

/-- C8: lifecycle guard.  Calling `update_word_count` on a finalized
corpus fails with the source's assertion message, and calling
`to_compact`, `to_loose` or `filter_count` on an unfinalized corpus fails
with the finalize-first assertion message; in this pure model an
erroring call returns no new state, so it neither reads nor modifies the
vocabulary. -/
theorem C8_lifecycle_guard (c : Corpus) (batch d : List Int) (mn mx : Nat)
    (mr mnr : Int) :
    (c.finalized = true →
      c.update_word_count batch =
        .error "Cannot update word counts after self.finalized()has been called") ∧
    (c.finalized = false →
      c.to_compact d =
        .error "self.finalized() must be called before any other array ops" ∧
      c.to_loose d =
        .error "self.finalized() must be called before any other array ops" ∧
      c.filter_count d mn mx mr mnr =
        .error "self.finalized() must be called before any other array ops") := by
  constructor
  · intro h
    rw [Corpus.update_word_count, if_pos (by rw [h])]
  · intro h
    refine ⟨?_, ?_, ?_⟩
    · rw [Corpus.to_compact, if_pos (by rw [h]; rfl)]
    · rw [Corpus.to_loose, if_pos (by rw [h]; rfl)]
    · rw [Corpus.filter_count, if_pos (by rw [h]; rfl)]

/-- C8 witness: the guard evaluated on the finalized scenario corpus and
on a freshly constructed corpus. -/
theorem C8_witness :
    corpusScenario.update_word_count [5] =
      .error "Cannot update word counts after self.finalized()has been called" ∧
    (Corpus.init (-2)).to_compact [0] =
      .error "self.finalized() must be called before any other array ops" ∧
    (Corpus.init (-2)).to_loose [0] =
      .error "self.finalized() must be called before any other array ops" ∧
    (Corpus.init (-2)).filter_count [0] 1 0 (-1) (-1) =
      .error "self.finalized() must be called before any other array ops" :=
  ⟨(C8_lifecycle_guard corpusScenario [5] [0] 1 0 (-1) (-1)).1 rfl,
    ((C8_lifecycle_guard (Corpus.init (-2)) [5] [0] 1 0 (-1) (-1)).2 rfl).1,
    ((C8_lifecycle_guard (Corpus.init (-2)) [5] [0] 1 0 (-1) (-1)).2 rfl).2.1,
    ((C8_lifecycle_guard (Corpus.init (-2)) [5] [0] 1 0 (-1) (-1)).2 rfl).2.2⟩

/-- C9 counterexample: with `data = []`, `keys = [0]`, `values = [5]` the
key/value lengths agree and no element of `data` exceeds the maximum key
(vacuously), yet the call still fails during validation: `data.max()`
raises numpy's `ValueError` on an empty array.  So "otherwise no
validation error is raised" is false as stated. -/
theorem C9_counterexample :
    ([0] : List Int).length = ([5] : List Int).length ∧
    (∀ x ∈ ([] : List Int), ∀ k : Int, x ≤ k) ∧
    fast_replace [] [0] [5] false =
      .error "ValueError: zero-size array to reduction operation maximum" :=
  ⟨rfl, by simp, rfl⟩

/-- C9 (amended): `fast_replace` validation.  A key/value length mismatch
fails with the shape assertion; with checks enabled, a data maximum
exceeding the key maximum fails with the bound assertion; and when the
lengths agree and either checks are skipped or both maxima exist (data
and keys non-empty) with the bound satisfied, no validation error is
raised — the call either succeeds or fails only with the gather's
index-out-of-bounds error. -/
theorem C9_validation {data keys values : List Int} {skip : Bool} :
    (keys.length ≠ values.length →
      fast_replace data keys values skip =
        .error "AssertionError: keys and values shapes differ") ∧
    (keys.length = values.length → skip = false →
      ∀ dm km, npMax data = some dm → npMax keys = some km → km < dm →
        fast_replace data keys values skip =
          .error "AssertionError: data.max() exceeds keys.max()") ∧
    (keys.length = values.length →
      (skip = true ∨
        (∃ dm km, npMax data = some dm ∧ npMax keys = some km ∧ dm ≤ km)) →
      (∃ out, fast_replace data keys values skip = .ok out) ∨
        fast_replace data keys values skip =
          .error "IndexError: index out of bounds") := by
  have hok : ∀ x : Int,
      (∃ v, replaceElem (sortPairs (keys.zip values)) x = .ok v) ∨
        replaceElem (sortPairs (keys.zip values)) x =
          .error "IndexError: index out of bounds" := by
    intro x
    cases hq : (List.map Prod.snd (sortPairs (keys.zip values)))[digitizeRight
        (List.map Prod.fst (sortPairs (keys.zip values))) x]? with
    | none =>
      right
      rw [replaceElem, hq]
    | some v =>
      left
      exact ⟨v, by rw [replaceElem, hq]⟩
  refine ⟨?_, ?_, ?_⟩
  · intro h
    unfold fast_replace
    rw [if_pos h]
  · intro h hskip dm km hdm hkm hlt
    subst hskip
    unfold fast_replace
    rw [hdm, hkm, if_neg (by simp [h])]
    show (if dm ≤ km then
        mapExcept (replaceElem (sortPairs (keys.zip values))) data
      else .error "AssertionError: data.max() exceeds keys.max()") =
      .error "AssertionError: data.max() exceeds keys.max()"
    rw [if_neg (by omega)]
  · intro h hside
    rcases hside with hskip | ⟨dm, km, hdm, hkm, hle⟩
    · subst hskip
      have hfr : fast_replace data keys values true =
          mapExcept (replaceElem (sortPairs (keys.zip values))) data := by
        unfold fast_replace
        rw [if_neg (by simp [h])]
      rw [hfr]
      exact mapExcept_ok_or_ixerr hok data
    · cases skip with
      | true =>
        have hfr : fast_replace data keys values true =
            mapExcept (replaceElem (sortPairs (keys.zip values))) data := by
          unfold fast_replace
          rw [if_neg (by simp [h])]
        rw [hfr]
        exact mapExcept_ok_or_ixerr hok data
      | false =>
        have hfr : fast_replace data keys values false =
            mapExcept (replaceElem (sortPairs (keys.zip values))) data := by
          unfold fast_replace
          rw [hdm, hkm, if_neg (by simp [h])]
          show (if dm ≤ km then
              mapExcept (replaceElem (sortPairs (keys.zip values))) data
            else .error "AssertionError: data.max() exceeds keys.max()") =
            mapExcept (replaceElem (sortPairs (keys.zip values))) data
          rw [if_pos hle]
        rw [hfr]
        exact mapExcept_ok_or_ixerr hok data

/-- C9 witness: the three amended validation statements evaluated on
concrete calls. -/
theorem C9_witness :
    fast_replace [1] [1, 2] [5] false =
      .error "AssertionError: keys and values shapes differ" ∧
    fast_replace [9] [1, 3] [10, 30] false =
      .error "AssertionError: data.max() exceeds keys.max()" ∧
    ((∃ out, fast_replace [2] [1, 3] [10, 30] false = .ok out) ∨
      fast_replace [2] [1, 3] [10, 30] false =
        .error "IndexError: index out of bounds") :=
  ⟨C9_validation.1 (by decide),
    C9_validation.2.1 rfl rfl 9 3 rfl rfl (by decide),
    C9_validation.2.2 rfl (Or.inr ⟨2, 3, rfl, rfl, by decide⟩)⟩

/-- C6: after `finalize`, `loose_to_compact` and `compact_to_loose` are
mutual inverses whose domains cover exactly the loose identifiers seen by
the update calls: a loose identifier has a compact image iff it appeared
in some batch; every seen identifier round-trips through both dicts; and
every compact identifier in `keys_compact` round-trips back. -/
theorem C6_mutual_inverse_bijections {oov : Int} {batches : List (List Int)}
    {c0 c : Corpus}
    (hrun : runUpdates (Corpus.init oov) batches = .ok c0)
    (hfin : c0.finalize = .ok c) :
    (∀ l, (∃ b ∈ batches, l ∈ b) ↔ (c.loose_to_compact l).isSome = true) ∧
    (∀ l, (∃ b ∈ batches, l ∈ b) →
      ∃ j, c.loose_to_compact l = some j ∧ c.compact_to_loose j = some l) ∧
    (∀ j, j ∈ c.keys_compact →
      ∃ l, c.compact_to_loose j = some l ∧ c.loose_to_compact l = some j) := by
  obtain ⟨_, hnd, _, _, hmem1, _, _, _⟩ := finalized_facts hrun hfin
  have hndc : c.keys_compact.Nodup := keys_compact_nodup c
  have hpair : ∀ i : Nat, i < c.keys_loose.length →
      ∃ l, c.keys_loose[i]? = some l ∧
        c.loose_to_compact l = some (Int.ofNat i) ∧
        c.compact_to_loose (Int.ofNat i) = some l := by
    intro i hi
    obtain ⟨l, hl⟩ : ∃ l, c.keys_loose[i]? = some l := by
      rw [List.getElem?_eq_getElem hi]
      exact ⟨_, rfl⟩
    have hci : c.keys_compact[i]? = some (Int.ofNat i) := keys_compact_getElem c hi
    refine ⟨l, hl, ?_, ?_⟩
    · rw [Corpus.loose_to_compact]
      exact lookup_zip_of_nodup hnd hl hci
    · rw [Corpus.compact_to_loose]
      exact lookup_zip_of_nodup hndc hci hl
  have hseen_pair : ∀ l, (∃ b ∈ batches, l ∈ b) →
      ∃ j, c.loose_to_compact l = some j ∧ c.compact_to_loose j = some l := by
    intro l hseen
    have hl : l ∈ c.keys_loose := (hmem1 l).mpr hseen
    obtain ⟨i, hi⟩ := List.mem_iff_getElem?.mp hl
    have hilt : i < c.keys_loose.length := (List.getElem?_eq_some_iff.mp hi).1
    obtain ⟨l2, hl2, hlc, hcl⟩ := hpair i hilt
    have hll : l2 = l := by
      rw [hi] at hl2
      exact (Option.some.inj hl2).symm
    subst hll
    exact ⟨Int.ofNat i, hlc, hcl⟩
  refine ⟨?_, hseen_pair, ?_⟩
  · intro l
    constructor
    · intro hseen
      obtain ⟨j, hlc, _⟩ := hseen_pair l hseen
      rw [hlc]
      rfl
    · intro hs
      cases hq : c.loose_to_compact l with
      | none =>
        rw [hq] at hs
        exact absurd hs (by simp)
      | some j =>
        rw [Corpus.loose_to_compact] at hq
        obtain ⟨i, hi1, _⟩ := lookup_zip_some hq
        exact (hmem1 l).mp (List.mem_iff_getElem?.mpr ⟨i, hi1⟩)
  · intro j hj
    obtain ⟨i, hi, hij⟩ := (keys_compact_mem c).mp hj
    obtain ⟨l, _, hlc, hcl⟩ := hpair i hi
    subst hij
    exact ⟨l, hcl, hlc⟩

/-- C6 witness: in the scenario corpus, the seen identifier 3 has a
compact image that maps back to 3, and compact identifier 2 maps to a
loose identifier that maps back to 2. -/
theorem C6_witness :
    (∃ j, corpusScenario.loose_to_compact 3 = some j ∧
      corpusScenario.compact_to_loose j = some 3) ∧
    (∃ l, corpusScenario.compact_to_loose 2 = some l ∧
      corpusScenario.loose_to_compact l = some 2) :=
  ⟨(C6_mutual_inverse_bijections
      (show runUpdates (Corpus.init (-2)) [[2, 2, 2, 2, 3, 3, 3, 4]] =
        .ok corpusScenario0 from rfl)
      (show corpusScenario0.finalize = .ok corpusScenario from rfl)).2.1 3
      (by decide),
    (C6_mutual_inverse_bijections
      (show runUpdates (Corpus.init (-2)) [[2, 2, 2, 2, 3, 3, 3, 4]] =
        .ok corpusScenario0 from rfl)
      (show corpusScenario0.finalize = .ok corpusScenario from rfl)).2.2 2
      (by decide)⟩

/-- C7: for every sequence of non-empty batches fed to
`update_word_count` and then finalized, `keys_counts` is monotonically
non-increasing and its sum is the total number of elements across all
batches. -/
theorem C7_counts_sorted_and_sum {oov : Int} {batches : List (List Int)}
    {c0 c : Corpus}
    (_hbne : ∀ b ∈ batches, b ≠ [])
    (hrun : runUpdates (Corpus.init oov) batches = .ok c0)
    (hfin : c0.finalize = .ok c) :
    c.keys_counts.Pairwise (fun a b : Nat => b ≤ a) ∧
    c.keys_counts.sum = (batches.map List.length).sum := by
  obtain ⟨_, _, _, _, _, hpw, hsum, _⟩ := finalized_facts hrun hfin
  exact ⟨hpw, hsum⟩

/-- C7 witness: the scenario corpus has non-increasing counts `[4,3,1]`
summing to the 8 observed elements. -/
theorem C7_witness :
    corpusScenario.keys_counts.Pairwise (fun a b : Nat => b ≤ a) ∧
    corpusScenario.keys_counts.sum =
      (([[2, 2, 2, 2, 3, 3, 3, 4]] : List (List Int)).map List.length).sum :=
  C7_counts_sorted_and_sum (by decide)
    (show runUpdates (Corpus.init (-2)) [[2, 2, 2, 2, 3, 3, 3, 4]] =
      .ok corpusScenario0 from rfl)
    (show corpusScenario0.finalize = .ok corpusScenario from rfl)

/-- C5 counterexample: the empty array is composed entirely of seen
identifiers (vacuously), yet `to_compact` does not return it unchanged —
it fails outright, because `fast_replace` evaluates `data.max()` and
numpy raises `ValueError` on an empty reduction.  So the round-trip law
as stated (for every such array) is refuted at `x = []`. -/
theorem C5_counterexample :
    (∀ e ∈ ([] : List Int), ∃ b ∈ [[2, 2, 2, 2, 3, 3, 3, 4]], e ∈ b) ∧
    corpusScenario.to_compact [] =
      .error "ValueError: zero-size array to reduction operation maximum" :=
  ⟨by simp, rfl⟩

/-- C5 (amended): for every finalized corpus and every non-empty array
composed entirely of identifiers seen during counting,
`to_loose(to_compact(x)) = x` element-wise. -/
theorem C5_roundtrip {oov : Int} {batches : List (List Int)} {c0 c : Corpus}
    {x : List Int}
    (hrun : runUpdates (Corpus.init oov) batches = .ok c0)
    (hfin : c0.finalize = .ok c)
    (hne : x ≠ [])
    (hseen : ∀ e ∈ x, ∃ b ∈ batches, e ∈ b) :
    ∃ y, c.to_compact x = .ok y ∧ c.to_loose y = .ok x := by
  obtain ⟨hfin1, hnd, hne1, hlen1, hmem1, _, _, _⟩ := finalized_facts hrun hfin
  have hxkeys : ∀ e ∈ x, e ∈ c.keys_loose := fun e he => (hmem1 e).mpr (hseen e he)
  have hoov : (npUnique x).filter (fun u => !c.keys_loose.contains u) = [] := by
    rw [List.filter_eq_nil_iff]
    intro a ha
    have hamem : a ∈ c.keys_loose := hxkeys a (mem_npUnique.mp ha)
    simp [hamem]
  have hlen2 : c.keys_loose.length = c.keys_compact.length :=
    (keys_compact_length c).symm
  obtain ⟨y, hy, hylen, hyidx⟩ :=
    fast_replace_spec hlen2 hne (fun e he => ⟨e, hxkeys e he, le_refl e⟩)
  have htc : c.to_compact x = .ok y := by
    rw [Corpus.to_compact, if_neg (by simp [hfin1])]
    show fast_replace x
        (c.keys_loose ++ (npUnique x).filter (fun u => !c.keys_loose.contains u))
        (c.keys_compact ++
          ((npUnique x).filter (fun u => !c.keys_loose.contains u)).map
            (fun _ => (-1 : Int)))
        false = .ok y
    rw [hoov, List.append_nil, List.map_nil, List.append_nil]
    exact hy
  have hymem : ∀ v ∈ y, v ∈ c.keys_compact := by
    intro v hv
    obtain ⟨i, hiy⟩ := List.mem_iff_getElem?.mp hv
    have hiylt : i < y.length := (List.getElem?_eq_some_iff.mp hiy).1
    have hix : i < x.length := by omega
    obtain ⟨e, hex⟩ : ∃ e, x[i]? = some e := by
      rw [List.getElem?_eq_getElem hix]
      exact ⟨_, rfl⟩
    obtain ⟨k, v2, hkv, _, _, _, hov⟩ := hyidx i e hex
    have hv2 : v2 = v := by
      rw [hov] at hiy
      exact Option.some.inj hiy
    subst hv2
    exact (List.of_mem_zip hkv).2
  have hoov2 : (npUnique y).filter (fun u => !c.keys_compact.contains u) = [] := by
    rw [List.filter_eq_nil_iff]
    intro a ha
    have hamem : a ∈ c.keys_compact := hymem a (mem_npUnique.mp ha)
    simp [hamem]
  have hyne : y ≠ [] := by
    intro hc
    rw [hc] at hylen
    exact hne (List.eq_nil_of_length_eq_zero hylen.symm)
  obtain ⟨z, hz, hzlen, hzidx⟩ :=
    fast_replace_spec (keys_compact_length c) hyne
      (fun v hv => ⟨v, hymem v hv, le_refl v⟩)
  have htl : c.to_loose y = .ok z := by
    rw [Corpus.to_loose, if_neg (by simp [hfin1])]
    show (if ((npUnique y).filter (fun u => !c.keys_compact.contains u)).all
        (fun o => decide (o < 0)) = true then
        fast_replace y c.keys_compact c.keys_loose false
      else
        .error "AssertionError: Found keys in word_compact not present in the corpus. Is this actually a compacted array?") = .ok z
    rw [hoov2]
    rw [if_pos (by rfl)]
    exact hz
  have hzx : z = x := by
    apply List.ext_getElem?
    intro n
    by_cases hn : n < x.length
    · obtain ⟨e, hex⟩ : ∃ e, x[n]? = some e := by
        rw [List.getElem?_eq_getElem hn]
        exact ⟨_, rfl⟩
      obtain ⟨k, v, hkv, _, _, hexact, hov⟩ := hyidx n e hex
      have hk : k = e := hexact (hxkeys e (List.mem_iff_getElem?.mpr ⟨n, hex⟩))
      obtain ⟨k2, w, hk2w, _, _, hexact2, hov2⟩ := hzidx n v hov
      have hvmem : v ∈ c.keys_compact := (List.of_mem_zip hkv).2
      have hk2 : k2 = v := hexact2 hvmem
      rw [hk2] at hk2w
      have hswap : (v, e) ∈ c.keys_compact.zip c.keys_loose := by
        rw [← hk]
        exact zip_swap_mem hkv
      have hwe : w = e := zip_pair_unique (keys_compact_nodup c) hk2w hswap
      rw [hov2, hex, hwe]
    · have h1 : x[n]? = none := List.getElem?_eq_none (le_of_not_lt hn)
      have h2 : z[n]? = none := by
        apply List.getElem?_eq_none
        rw [hzlen, hylen]
        exact le_of_not_lt hn
      rw [h1, h2]
  refine ⟨y, htc, ?_⟩
  rw [htl, hzx]

/-- C5 witness: the amended round trip evaluated on the scenario corpus
and the all-seen array `[4,2,3,3]`. -/
theorem C5_witness :
    ∃ y, corpusScenario.to_compact [4, 2, 3, 3] = .ok y ∧
      corpusScenario.to_loose y = .ok [4, 2, 3, 3] :=
  C5_roundtrip
    (show runUpdates (Corpus.init (-2)) [[2, 2, 2, 2, 3, 3, 3, 4]] =
      .ok corpusScenario0 from rfl)
    (show corpusScenario0.finalize = .ok corpusScenario from rfl)
    (by decide) (by decide)

/-- C10 counterexample: the empty array has every entry in range or
negative (vacuously), yet `to_loose` does not accept it — `fast_replace`
evaluates `data.max()` and numpy raises `ValueError` on an empty
reduction.  So "accepts any such input array, raising no error" is
refuted at the empty array. -/
theorem C10_counterexample :
    (∀ e ∈ ([] : List Int), e < 0 ∨ e ∈ corpusScenario.keys_compact) ∧
    corpusScenario.to_loose [] =
      .error "ValueError: zero-size array to reduction operation maximum" :=
  ⟨by simp, rfl⟩

/-- C10 (amended): for every finalized corpus and every non-empty input
array whose entries are each either a valid compact identifier or
negative, `to_loose` succeeds, and every negative (sentinel) entry is
mapped to `keys_loose[0]`, the loose identifier of the most frequent
word, rather than being preserved as a sentinel. -/
theorem C10_to_loose_sentinel {oov : Int} {batches : List (List Int)}
    {c0 c : Corpus} {d : List Int}
    (hrun : runUpdates (Corpus.init oov) batches = .ok c0)
    (hfin : c0.finalize = .ok c)
    (hne : d ≠ [])
    (hentries : ∀ e ∈ d, e < 0 ∨ e ∈ c.keys_compact) :
    ∃ out : List Int, c.to_loose d = .ok out ∧ out.length = d.length ∧
      ∀ (i : Nat) (e : Int), d[i]? = some e → e < 0 →
        out[i]? = c.keys_loose[0]? := by
  obtain ⟨hfin1, _, hne1, _, _, _, _, _⟩ := finalized_facts hrun hfin
  have hn1 : 0 < c.keys_loose.length := List.length_pos.mpr hne1
  have h0mem : (0 : Int) ∈ c.keys_compact := by
    rw [keys_compact_mem]
    exact ⟨0, hn1, rfl⟩
  have hcov : ∀ e ∈ d, ∃ k ∈ c.keys_compact, e ≤ k := by
    intro e he
    rcases hentries e he with hneg | hmem
    · exact ⟨0, h0mem, le_of_lt hneg⟩
    · exact ⟨e, hmem, le_refl e⟩
  obtain ⟨out, hok, hlen2, hidx⟩ :=
    fast_replace_spec (keys_compact_length c) hne hcov
  have hoovall : ((npUnique d).filter (fun u => !c.keys_compact.contains u)).all
      (fun o => decide (o < 0)) = true := by
    rw [List.all_eq_true]
    intro u hu
    obtain ⟨hu1, hu2⟩ := List.mem_filter.mp hu
    rcases hentries u (mem_npUnique.mp hu1) with hneg | hmem
    · simpa using hneg
    · exfalso
      simp at hu2
      exact hu2 hmem
  have htl : c.to_loose d = .ok out := by
    rw [Corpus.to_loose, if_neg (by simp [hfin1])]
    show (if ((npUnique d).filter (fun u => !c.keys_compact.contains u)).all
        (fun o => decide (o < 0)) = true then
        fast_replace d c.keys_compact c.keys_loose false
      else
        .error "AssertionError: Found keys in word_compact not present in the corpus. Is this actually a compacted array?") = .ok out
    rw [if_pos hoovall]
    exact hok
  refine ⟨out, htl, hlen2, ?_⟩
  intro i e hie hneg
  obtain ⟨k, v, hkv, _, hmin, _, hov⟩ := hidx i e hie
  have hk0 : k = 0 := by
    have hkmem : k ∈ c.keys_compact := (List.of_mem_zip hkv).1
    have hk_ge : (0 : Int) ≤ k := by
      obtain ⟨i2, _, hi2⟩ := (keys_compact_mem c).mp hkmem
      rw [hi2]
      exact Int.natCast_nonneg i2
    have hk_le : k ≤ 0 := hmin 0 h0mem (le_of_lt hneg)
    omega
  subst hk0
  obtain ⟨l0, hl0⟩ : ∃ l0, c.keys_loose[0]? = some l0 := by
    rw [List.getElem?_eq_getElem hn1]
    exact ⟨_, rfl⟩
  have hc0 : c.keys_compact[0]? = some 0 := keys_compact_getElem c hn1
  have hpair0 : ((0 : Int), l0) ∈ c.keys_compact.zip c.keys_loose :=
    pair_mem_zip hc0 hl0
  have hv : v = l0 := zip_pair_unique (keys_compact_nodup c) hkv hpair0
  rw [hov, hl0, hv]

/-- C10 witness: the amended statement evaluated on the scenario corpus
and the input `[-1, 2, 0, -5]`, whose negative entries all come back as
`keys_loose[0] = 2`. -/
theorem C10_witness :
    ∃ out : List Int, corpusScenario.to_loose [-1, 2, 0, -5] = .ok out ∧
      out.length = ([-1, 2, 0, -5] : List Int).length ∧
      ∀ (i : Nat) (e : Int), ([-1, 2, 0, -5] : List Int)[i]? = some e → e < 0 →
        out[i]? = corpusScenario.keys_loose[0]? :=
  C10_to_loose_sentinel
    (show runUpdates (Corpus.init (-2)) [[2, 2, 2, 2, 3, 3, 3, 4]] =
      .ok corpusScenario0 from rfl)
    (show corpusScenario0.finalize = .ok corpusScenario from rfl)
    (by decide) (by decide)

end Lda2vec
